import Mathlib

set_option maxRecDepth 4000

namespace ELV

/-- Dynamic values flowing through the view: a shallow embedding of the
JavaScript values the plugin manipulates. Null and undefined are merged into
one constructor, numbers are modelled as integers, and a host object is
represented by the string its toString method returns. -/
inductive JSValue where
  | vnull : JSValue
  | vstr (s : String) : JSValue
  | vnum (n : Int) : JSValue
  | vbool (b : Bool) : JSValue
  | varr (elems : List JSValue) : JSValue
  | vobj (toStr : String) : JSValue

/-- The JavaScript test value === null or value === undefined, which
inspects only the top of the value. -/
def JSValue.isNull : JSValue → Bool
  | .vnull => true
  | _ => false

/-- JavaScript truthiness of a value: null, the empty string, zero and false
are falsy; every array and object is truthy. -/
def JSValue.truthy : JSValue → Bool
  | .vnull => false
  | .vstr s => !(s = "")
  | .vnum n => !(n = 0)
  | .vbool b => b
  | .varr _ => true
  | .vobj _ => true

/-- Decimal digits of a natural number, most significant first. The fuel
argument bounds the recursion; any fuel above the number of digits is
enough. -/
def natDigits : Nat → Nat → List Char
  | 0, _ => []
  | fuel + 1, n =>
    if n < 10 then [Nat.digitChar n]
    else natDigits fuel (n / 10) ++ [Nat.digitChar (n % 10)]

/-- Decimal string of a natural number, modelling the JavaScript String
conversion of a nonnegative integral number. -/
def natToString (n : Nat) : String := ⟨natDigits (n + 1) n⟩

/-- Models the JavaScript String conversion of an integral number: a minus
sign followed by the decimal digits for negative numbers. -/
def intToString : Int → String
  | .ofNat m => natToString m
  | .negSucc m => ⟨'-' :: (natToString (m + 1)).data⟩

/-- Greedy scan of the alias part of a wikilink: a nonempty run of characters
other than the closing bracket, immediately followed by the two closing
brackets. Returns the alias and the remainder after the match. -/
def scanAlias (rest : List Char) : Option (List Char × List Char) :=
  let run := rest.takeWhile (fun c => c ≠ ']')
  if run = [] then none
  else
    match rest.dropWhile (fun c => c ≠ ']') with
    | ']' :: ']' :: r2 => some (run, r2)
    | _ => none

/-- Lazy scan of the link part of the wikilink pattern, mirroring the regex
of stripWikilinks with its lazy link group, optional greedy alias group and
the two closing brackets. The first argument holds the link characters read
so far; the result is the replacement text the regex callback would produce,
alias when present else link, together with the remainder after the match. -/
def scanLink (acc : List Char) : List Char → Option (List Char × List Char)
  | [] => none
  | c :: rest =>
    if acc = [] then
      if c = ']' then none else scanLink [c] rest
    else
      if c = '|' then
        match scanAlias rest with
        | some (als, r2) => some (als, r2)
        | none => scanLink (acc ++ [c]) rest
      else if c = ']' then
        match rest with
        | ']' :: r2 => some (acc, r2)
        | _ => none
      else scanLink (acc ++ [c]) rest

/-- One fueled pass of the global regex replacement performed by
stripWikilinks: scan left to right, replace each wikilink match by its alias
or link text, copy everything else. Fuel at least the length of the list is
enough. -/
def stripGoF : Nat → List Char → List Char
  | 0, l => l
  | _ + 1, [] => []
  | fuel + 1, '[' :: '[' :: rest =>
    match scanLink [] rest with
    | some (rep, r2) => rep ++ stripGoF fuel r2
    | none => '[' :: stripGoF fuel ('[' :: rest)
  | fuel + 1, c :: rest => c :: stripGoF fuel rest

/-- Strip wikilink brackets from a string, translating stripWikilinks: every
occurrence of the bracketed pattern, with an optional pipe separated alias,
is replaced by the alias when present, else by the link target. -/
def stripWikilinks (s : String) : String := ⟨stripGoF s.data.length s.data⟩

mutual

/-- JavaScript stringification of one array element inside the toString of an
array: null and undefined elements become the empty string, other elements
their usual string conversion. -/
def arrayElemString : JSValue → String
  | .vnull => ""
  | .vstr s => s
  | .vnum n => intToString n
  | .vbool b => if b then "true" else "false"
  | .varr vs => arrayJoinString vs
  | .vobj s => s

/-- The toString of a JavaScript array: elements stringified and joined with
commas. -/
def arrayJoinString : List JSValue → String
  | [] => ""
  | [v] => arrayElemString v
  | v :: vs => arrayElemString v ++ "," ++ arrayJoinString vs

end

/-- JavaScript String conversion of a non-null value, which is also the
result of calling its toString method: used by the object branch of
valueToGroupString and by the subtitle path. -/
def JSValue.jsStr : JSValue → String
  | .vnull => "null"
  | .vstr s => s
  | .vnum n => intToString n
  | .vbool b => if b then "true" else "false"
  | .varr vs => arrayJoinString vs
  | .vobj s => s

/-- The object branch of valueToGroupString: a stringification that is empty
or the literal null or undefined yields the sentinel None, otherwise the
wikilink stripped string. -/
def groupStringOfToString (str : String) : String :=
  if str = "" ∨ str = "null" ∨ str = "undefined" then "None" else stripWikilinks str

/-- Convert a value to a string for grouping, translating valueToGroupString.
In the source the typeof object test precedes the Array.isArray test, and an
array is typeof object and has a toString method, so an array value takes the
object branch, where its toString joins the elements with commas; the
Array.isArray branch further down in the source is therefore unreachable. -/
def valueToGroupString : JSValue → String
  | .vnull => "None"
  | .vobj s => groupStringOfToString s
  | .varr vs => groupStringOfToString (arrayJoinString vs)
  | .vstr s => if stripWikilinks s = "" then "None" else stripWikilinks s
  | .vnum n => intToString n
  | .vbool b => if b then "True" else "False"

/-- Shallow model of a Bases entry together with the host metadata the view
reads for it: the getValue accessor may throw, modelled by the error case, or
return a value; frontmatter is the optional field map, absent when the file
cache or its frontmatter object is missing; parentName models the optional
name of the parent folder of the file; inlineTags models the inline tag
annotations of the file cache. -/
structure BasesEntry where
  getValue : String → Except Unit JSValue
  frontmatter : Option (List (String × JSValue))
  parentName : Option String
  inlineTags : List String

/-- JavaScript startsWith on strings, modelled structurally on the character
lists so that it evaluates by reduction. -/
def strStartsWith (s p : String) : Bool := p.data.isPrefixOf s.data

/-- First matching field of a frontmatter object: JavaScript object keys are
unique and lookup returns the field value when the key is present. -/
def lookupFm : List (String × JSValue) → String → Option JSValue
  | [], _ => none
  | (k, v) :: rest, name => if k = name then some v else lookupFm rest name

/-- The tail of the grouping resolver, translating the part of
getPropertyValueAsString after the accessor attempt, entered when the
accessor threw or returned a falsy value: the frontmatter field for note
prefixed ids when present, else the parent folder name or Root for
file.folder, else the sentinel None. -/
def groupFallback (entry : BasesEntry) (propertyId : String) : String :=
  let fromNote : Option String :=
    if strStartsWith propertyId "note." then
      match entry.frontmatter with
      | some fm =>
        match lookupFm fm (propertyId.drop 5) with
        | some v => some (valueToGroupString v)
        | none => none
      | none => none
    else none
  match fromNote with
  | some s => s
  | none =>
    if propertyId = "file.folder" then
      match entry.parentName with
      | some n => if n = "" then "Root" else n
      | none => "Root"
    else "None"

/-- Get the property value of an entry as a string for grouping, translating
getPropertyValueAsString: a truthy accessor result is converted by
valueToGroupString and returned; a thrown accessor or a falsy result falls
through to the frontmatter fallback for note prefixed ids, then to the parent
folder special case for file.folder, then to the sentinel None. -/
def getPropertyValueAsString (entry : BasesEntry) (propertyId : String) : String :=
  match entry.getValue propertyId with
  | .ok v => if v.truthy then valueToGroupString v else groupFallback entry propertyId
  | .error _ => groupFallback entry propertyId

/-- The frontmatter fallback of the subtitle resolver, translating the part
of getSubtitleText after the accessor attempt: for note prefixed ids a
present non null frontmatter field is stringified and stripped, everything
else yields null. -/
def subtitleFallback (entry : BasesEntry) (subtitleProperty : String) : Option String :=
  if strStartsWith subtitleProperty "note." then
    match entry.frontmatter with
    | some fm =>
      match lookupFm fm (subtitleProperty.drop 5) with
      | some v => if v.isNull then none else some (stripWikilinks v.jsStr)
      | none => none
    | none => none
  else none

/-- Get the subtitle text of an entry, translating getSubtitleText: the
parent folder name for file.folder, null when the parent is absent or its
name empty; otherwise a truthy accessor value with a stringification other
than empty, null and undefined is stripped and returned, and every other
outcome falls through to the frontmatter fallback. -/
def getSubtitleText (entry : BasesEntry) (subtitleProperty : String) : Option String :=
  if subtitleProperty = "file.folder" then
    match entry.parentName with
    | some n => if n = "" then none else some n
    | none => none
  else
    match entry.getValue subtitleProperty with
    | .ok v =>
      if v.truthy then
        let valueStr := v.jsStr
        if valueStr ≠ "" ∧ valueStr ≠ "null" ∧ valueStr ≠ "undefined" then
          some (stripWikilinks valueStr)
        else subtitleFallback entry subtitleProperty
      else subtitleFallback entry subtitleProperty
    | .error _ => subtitleFallback entry subtitleProperty

/-- Append an entry to the bucket of its key in the ordered group list,
creating the bucket at the end on first sight of the key: models the Map set
and push steps of groupEntriesByProperty, with the insertion ordered Map
represented as an association list. -/
def insertEntry (groups : List (String × List BasesEntry)) (key : String) (e : BasesEntry) :
    List (String × List BasesEntry) :=
  match groups with
  | [] => [(key, [e])]
  | (k, es) :: rest =>
    if k = key then (k, es ++ [e]) :: rest else (k, es) :: insertEntry rest key e

/-- The entry loop of groupEntriesByProperty. -/
def groupLoop (propertyId : String) :
    List BasesEntry → List (String × List BasesEntry) → List (String × List BasesEntry)
  | [], groups => groups
  | e :: es, groups =>
    groupLoop propertyId es (insertEntry groups (getPropertyValueAsString e propertyId) e)

/-- Group entries by a property value, translating groupEntriesByProperty:
one pass over the entries, each appended to the bucket of its resolved key,
buckets ordered by first sight of their key. -/
def groupEntriesByProperty (entries : List BasesEntry) (propertyId : String) :
    List (String × List BasesEntry) :=
  groupLoop propertyId entries []

/-- Bucket of a key in an ordered group list, empty when the key is absent. -/
def bucketOf (groups : List (String × List BasesEntry)) (key : String) : List BasesEntry :=
  match groups with
  | [] => []
  | (k, es) :: rest => if k = key then es else bucketOf rest key

/-- Keys in order of first occurrence, skipping keys already seen. -/
def firstSeen (seen : List String) : List String → List String
  | [] => []
  | k :: rest =>
    if seen.contains k then firstSeen seen rest else k :: firstSeen (k :: seen) rest

/-- Nesting role of a rendered group node. -/
inductive GroupLevel where
  | primary
  | secondary
  | tertiary
deriving DecidableEq

/-- The two collapsed key sets of the view, translating the collapsedGroups
and collapsedSubGroups fields; the JavaScript Set of strings is modelled as a
list queried by membership. -/
structure CollapseState where
  collapsedGroups : List String
  collapsedSubGroups : List String

/-- JavaScript Set add: a no op when the key is already present. -/
def setAdd (s : List String) (k : String) : List String :=
  if s.contains k then s else k :: s

/-- JavaScript Set delete. -/
def setDelete (s : List String) (k : String) : List String :=
  s.filter (fun x => x ≠ k)

/-- The role test of the rendering call sites: whether the level is the
secondary or the tertiary role. -/
def isSubLevel (level : GroupLevel) : Bool :=
  level = GroupLevel.secondary || level = GroupLevel.tertiary

/-- The collapsed set matching a nesting role, as selected in
renderGroupHeader, renderCustomGroup and renderGroupWithSubGroups: the sub
group set for the secondary and tertiary roles, the top level set
otherwise. -/
def collapsedSetFor (cs : CollapseState) (level : GroupLevel) : List String :=
  if isSubLevel level then cs.collapsedSubGroups else cs.collapsedGroups

/-- Membership of a key in the collapsed set matching a role. -/
def memberCollapsed (cs : CollapseState) (level : GroupLevel) (key : String) : Bool :=
  (collapsedSetFor cs level).contains key

/-- The click handler installed by renderGroupHeader, with isCollapsed the
membership of the key in the role matching collapsed set as computed by the
rendering call sites from the same set and key: delete the key when collapsed
and add it when not. -/
def toggleCollapse (cs : CollapseState) (key : String) (level : GroupLevel) : CollapseState :=
  let isCollapsed := (collapsedSetFor cs level).contains key
  if isSubLevel level then
    { cs with collapsedSubGroups :=
        if isCollapsed then setDelete cs.collapsedSubGroups key
        else setAdd cs.collapsedSubGroups key }
  else
    { cs with collapsedGroups :=
        if isCollapsed then setDelete cs.collapsedGroups key
        else setAdd cs.collapsedGroups key }

/-- Composite collapse key of a plugin group under an optional native key, as
built in renderCustomGroup and renderGroupWithSubGroups: the native key is
tested for truthiness, so an empty native key yields the bare group key. -/
def makeCollapseKey (nativeKey groupKey : String) : String :=
  if nativeKey = "" then groupKey else nativeKey ++ "::" ++ groupKey

/-- Composite collapse key of a sub group, as built in
renderGroupWithSubGroups. -/
def makeCompoundKey (nativeKey groupKey subGroupKey : String) : String :=
  if nativeKey = "" then groupKey ++ ":" ++ subGroupKey
  else nativeKey ++ "::" ++ groupKey ++ "::" ++ subGroupKey

/-- The nesting role array of the render functions, indexed by level
offset. -/
def levelAt : Nat → GroupLevel
  | 0 => .primary
  | 1 => .secondary
  | _ => .tertiary

/-- Abstract render of one sub group node produced by
renderGroupWithSubGroups: its role, key, compound collapse key, collapse flag
and the entries it renders, empty when collapsed. -/
structure SubGroupRender where
  level : GroupLevel
  key : String
  compoundKey : String
  collapsed : Bool
  entries : List BasesEntry

/-- Abstract render of one plugin group node: its role, key, collapse key,
collapse flag, rendered entries and rendered sub group nodes, empty when
collapsed. -/
structure GroupRender where
  level : GroupLevel
  key : String
  collapseKey : String
  collapsed : Bool
  entries : List BasesEntry
  subs : List SubGroupRender

/-- Abstract translation of renderCustomGroup: the collapse key is the
composite of the native key and the group key, the collapse flag is looked up
in the role matching set, and entries are rendered only when the node is not
collapsed. -/
def renderCustomGroup (nativeKey groupKey : String) (entries : List BasesEntry)
    (levelOffset : Nat) (cs : CollapseState) : GroupRender :=
  let level := levelAt levelOffset
  let collapseKey := makeCollapseKey nativeKey groupKey
  let isCollapsed := (collapsedSetFor cs level).contains collapseKey
  { level := level, key := groupKey, collapseKey := collapseKey, collapsed := isCollapsed,
    entries := if isCollapsed then [] else entries, subs := [] }

/-- Abstract translation of renderGroupWithSubGroups: the primary collapse
key is the composite of the native key and the group key; when the node is
not collapsed the entries are sub grouped by the sub group property and each
sub node carries its compound collapse key and its collapse flag from the sub
group set. -/
def renderGroupWithSubGroups (nativeKey groupKey : String) (entries : List BasesEntry)
    (subGroupProperty : String) (levelOffset : Nat) (cs : CollapseState) : GroupRender :=
  let primaryLevel := levelAt levelOffset
  let subLevel := levelAt (levelOffset + 1)
  let collapseKey := makeCollapseKey nativeKey groupKey
  let isCollapsed := (collapsedSetFor cs primaryLevel).contains collapseKey
  let subs :=
    if isCollapsed then []
    else
      (groupEntriesByProperty entries subGroupProperty).map (fun p =>
        let compoundKey := makeCompoundKey nativeKey groupKey p.1
        let isSubCollapsed := cs.collapsedSubGroups.contains compoundKey
        ({ level := subLevel, key := p.1, compoundKey := compoundKey,
           collapsed := isSubCollapsed,
           entries := if isSubCollapsed then [] else p.2 } : SubGroupRender))
  { level := primaryLevel, key := groupKey, collapseKey := collapseKey,
    collapsed := isCollapsed, entries := [], subs := subs }

/-- The bucket structure of formatRelativeDate applied to the millisecond
difference between now and the timestamp. -/
def relFmt (diff : Int) : String :=
  let seconds := Int.fdiv diff 1000
  let minutes := Int.fdiv seconds 60
  let hours := Int.fdiv minutes 60
  let days := Int.fdiv hours 24
  if days = 0 then
    if hours = 0 then
      if minutes = 0 then "Just now" else intToString minutes ++ "m ago"
    else intToString hours ++ "h ago"
  else if days = 1 then "Yesterday"
  else if days < 7 then intToString days ++ "d ago"
  else if days < 30 then intToString (Int.fdiv days 7) ++ "w ago"
  else if days < 365 then intToString (Int.fdiv days 30) ++ "mo ago"
  else intToString (Int.fdiv days 365) ++ "y ago"

/-- Format a timestamp relative to now, translating formatRelativeDate. The
source reads Date.now() internally, modelled here as the explicit second
argument; every division floors toward negative infinity as Math.floor
does. -/
def formatRelativeDate (timestamp now : Int) : String :=
  relFmt (now - timestamp)

/-- Fueled global removal of angle bracket tags, modelling the regex
replacement in truncateToLines of an opening angle bracket, a run of
characters other than the closing bracket, and the closing bracket, by
nothing. Fuel at least the length of the list is enough. -/
def stripTagsF : Nat → List Char → List Char
  | 0, l => l
  | _ + 1, [] => []
  | fuel + 1, '<' :: rest =>
    match rest.dropWhile (fun c => c ≠ '>') with
    | '>' :: r2 => stripTagsF fuel r2
    | _ => '<' :: stripTagsF fuel rest
  | fuel + 1, c :: rest => c :: stripTagsF fuel rest

/-- JavaScript String trim on a character list. -/
def trimChars (l : List Char) : List Char :=
  ((l.dropWhile Char.isWhitespace).reverse.dropWhile Char.isWhitespace).reverse

/-- Split on line breaks, either carriage return plus newline or bare
newline, modelling the split of truncateToLines. -/
def splitLinesGo (acc : List Char) : List Char → List (List Char)
  | [] => [acc.reverse]
  | '\r' :: '\n' :: rest => acc.reverse :: splitLinesGo [] rest
  | '\n' :: rest => acc.reverse :: splitLinesGo [] rest
  | c :: rest => splitLinesGo (c :: acc) rest

/-- The non blank lines kept by truncateToLines: tags stripped, the whole
text trimmed, split on line breaks, and lines blank after trimming
dropped. -/
def keptLines (text : List Char) : List (List Char) :=
  (splitLinesGo [] (trimChars (stripTagsF text.length text))).filter
    (fun l => !(trimChars l).isEmpty)

/-- Join lines with a single space. -/
def joinSpace : List (List Char) → List Char
  | [] => []
  | [l] => l
  | l :: ls => l ++ ' ' :: joinSpace ls

/-- Truncate text to a number of lines, translating truncateToLines: strip
angle bracket tags, trim, split on line breaks, drop blank lines, keep the
first maxLines lines joined with a single space, and when the join exceeds
maxLines times eighty characters cut there, trim the cut and append the
ellipsis marker. -/
def truncateToLines (text : String) (lines : Nat) : String :=
  let truncated := joinSpace ((keptLines text.data).take lines)
  let maxChars := lines * 80
  if truncated.length > maxChars then ⟨trimChars (truncated.take maxChars) ++ "...".data⟩
  else ⟨truncated⟩

/-- The frontmatter tag values read by getTags: the tags field when present
and truthy, spread into the list when an array, wrapped when a string,
ignored otherwise. -/
def fmTagValues (entry : BasesEntry) : List JSValue :=
  match entry.frontmatter with
  | none => []
  | some fm =>
    match lookupFm fm "tags" with
    | none => []
    | some v =>
      if v.truthy then
        match v with
        | .varr vs => vs
        | .vstr s => [.vstr s]
        | _ => []
      else []

/-- Strip one leading hash from an inline tag. -/
def stripHash (t : String) : String := if strStartsWith t "#" then t.drop 1 else t

/-- The strict equality test of the includes call in getTags between a list
element and a string tag: true exactly for the string value with the same
content. -/
def isTagMatch (t : String) : JSValue → Bool
  | .vstr s => s = t
  | _ => false

/-- The includes test of getTags. -/
def containsTag (acc : List JSValue) (t : String) : Bool :=
  acc.any (isTagMatch t)

/-- The inline tag loop of getTags: append each stripped inline tag that is
not already present. -/
def addInlineTags (acc : List JSValue) : List String → List JSValue
  | [] => acc
  | t :: ts =>
    let tag := stripHash t
    if containsTag acc tag then addInlineTags acc ts
    else addInlineTags (acc ++ [JSValue.vstr tag]) ts

/-- Tags of an entry, translating getTags: frontmatter tags first, spread as
given, then inline tags with one leading hash removed, each added only when
not already present. The source pushes frontmatter array elements unchanged
into the result, so elements are modelled as values and inline tags compare
equal only to string elements, matching the strict equality of includes. -/
def getTags (entry : BasesEntry) : List JSValue :=
  addInlineTags (fmTagValues entry) entry.inlineTags

theorem mkStr_eq_empty_iff (l : List Char) : (⟨l⟩ : String) = "" ↔ l = [] := by
  constructor
  · intro h
    exact congrArg String.data h
  · intro h
    rw [h]

theorem scanAlias_rep_ne (rest als r2 : List Char) (h : scanAlias rest = some (als, r2)) :
    als ≠ [] := by
  simp only [scanAlias] at h
  split at h
  · exact absurd h (by simp)
  · rename_i hrun
    split at h
    · rw [Option.some.injEq, Prod.mk.injEq] at h
      obtain ⟨rfl, rfl⟩ := h
      exact hrun
    · exact absurd h (by simp)

theorem scanLink_rep_ne (l : List Char) : ∀ (acc rep r2 : List Char),
    scanLink acc l = some (rep, r2) → rep ≠ [] := by
  induction l with
  | nil =>
    intro acc rep r2 h
    simp [scanLink] at h
  | cons c rest ih =>
    intro acc rep r2 h
    simp only [scanLink] at h
    split at h
    · split at h
      · exact absurd h (by simp)
      · exact ih _ _ _ h
    · rename_i hacc
      split at h
      · split at h
        · rename_i als' r2' hals
          rw [Option.some.injEq, Prod.mk.injEq] at h
          obtain ⟨rfl, rfl⟩ := h
          exact scanAlias_rep_ne rest _ _ hals
        · exact ih _ _ _ h
      · split at h
        · split at h
          · rename_i r2' hrest
            rw [Option.some.injEq, Prod.mk.injEq] at h
            obtain ⟨rfl, rfl⟩ := h
            exact hacc
          · exact absurd h (by simp)
        · exact ih _ _ _ h

theorem stripGoF_open_eq (fuel : Nat) (rest : List Char) :
    stripGoF (fuel + 1) ('[' :: '[' :: rest) =
      match scanLink [] rest with
      | some (rep, r2) => rep ++ stripGoF fuel r2
      | none => '[' :: stripGoF fuel ('[' :: rest) := rfl

theorem stripGoF_cons (fuel : Nat) (c : Char) (rest : List Char)
    (h : ¬(c = '[' ∧ ∃ r, rest = '[' :: r)) :
    stripGoF (fuel + 1) (c :: rest) = c :: stripGoF fuel rest := by
  rw [stripGoF.eq_def]
  split
  · rename_i heq _
    omega
  · rename_i heq
    simp at heq
  · rename_i heq1 heq2
    refine absurd ?_ h
    obtain ⟨h1, h2⟩ := List.cons.injEq .. ▸ heq2
    exact ⟨h1, _, h2⟩
  · rename_i f2 c2 rest2 hnotpat heq1 heq2
    obtain rfl : fuel = f2 := by omega
    obtain ⟨rfl, rfl⟩ := List.cons.injEq .. ▸ heq2
    rfl

theorem stripGoF_ne_nil (fuel : Nat) (l : List Char) (h : l ≠ []) : stripGoF fuel l ≠ [] := by
  cases fuel with
  | zero => simpa [stripGoF] using h
  | succ fuel =>
    match l with
    | [] => exact absurd rfl h
    | c :: rest =>
      by_cases hc : c = '[' ∧ ∃ r, rest = '[' :: r
      · obtain ⟨rfl, r, rfl⟩ := hc
        rw [stripGoF_open_eq]
        cases hsl : scanLink [] r with
        | none => simp
        | some pr =>
          obtain ⟨rep, r2⟩ := pr
          have hne := scanLink_rep_ne r [] rep r2 hsl
          intro hcontra
          rw [List.append_eq_nil] at hcontra
          exact hne hcontra.1
      · rw [stripGoF_cons fuel c rest hc]
        simp

/-- Whether a character list contains two adjacent opening brackets, the
opener of the wikilink pattern. -/
def hasWikiOpen : List Char → Bool
  | [] => false
  | _ :: [] => false
  | a :: b :: rest => (a = '[' && b = '[') || hasWikiOpen (b :: rest)

theorem hasWikiOpen_cons (c : Char) (rest : List Char)
    (h : hasWikiOpen (c :: rest) = false) : hasWikiOpen rest = false := by
  cases rest with
  | nil => rfl
  | cons b r =>
    simp only [hasWikiOpen, Bool.or_eq_false_iff] at h
    exact h.2

theorem stripGoF_of_noOpen (fuel : Nat) : ∀ (l : List Char),
    hasWikiOpen l = false → stripGoF fuel l = l := by
  induction fuel with
  | zero => intro l _; rfl
  | succ fuel ih =>
    intro l h
    match l with
    | [] => rfl
    | c :: rest =>
      have hnot : ¬(c = '[' ∧ ∃ r, rest = '[' :: r) := by
        rintro ⟨rfl, r, rfl⟩
        simp [hasWikiOpen] at h
      rw [stripGoF_cons fuel c rest hnot]
      rw [ih rest (hasWikiOpen_cons c rest h)]

theorem stripWikilinks_ne_empty (s : String) (h : s ≠ "") : stripWikilinks s ≠ "" := by
  have hd : s.data ≠ [] := by
    intro hc
    apply h
    obtain ⟨d⟩ := s
    rw [show d = [] from hc]
  rw [stripWikilinks, Ne, mkStr_eq_empty_iff]
  exact stripGoF_ne_nil _ _ hd

/-- C2 counterexample: stripping is not idempotent, because a replacement can
join with surrounding text into a new wikilink pattern; one strip of the
input turns four opening brackets around a link into a fresh wikilink, and a
second strip removes it too. -/
theorem c2_stripWikilinks_not_idempotent :
    stripWikilinks (stripWikilinks "[[[[a]]]]") ≠ stripWikilinks "[[[[a]]]]" ∧
    stripWikilinks "[[[[a]]]]" = "[[a]]" ∧
    stripWikilinks (stripWikilinks "[[[[a]]]]") = "a" := by
  refine ⟨?_, rfl, rfl⟩
  decide

/-- C2 amended: stripping twice equals stripping once for every string whose
single strip result no longer contains the wikilink opener of two adjacent
opening brackets; on such outputs the replacement pass is the identity. -/
theorem c2_stripWikilinks_idempotent_when_no_opener (s : String)
    (h : hasWikiOpen (stripWikilinks s).data = false) :
    stripWikilinks (stripWikilinks s) = stripWikilinks s := by
  rw [stripWikilinks, stripGoF_of_noOpen _ _ h]

theorem c2_witness :
    hasWikiOpen (stripWikilinks "see [[a|b]] end").data = false ∧
    stripWikilinks (stripWikilinks "see [[a|b]] end") = stripWikilinks "see [[a|b]] end" :=
  ⟨by decide, c2_stripWikilinks_idempotent_when_no_opener "see [[a|b]] end" (by decide)⟩

/-- C10: valueToGroupString never returns the empty string: null, empty and
unusable stringifications map to the sentinel None, numbers and booleans have
nonempty renderings, and wikilink stripping of a nonempty string is
nonempty. -/
theorem c10_valueToGroupString_nonempty (v : JSValue) : valueToGroupString v ≠ "" := by
  cases v with
  | vnull => simp [valueToGroupString]
  | vstr s =>
    simp only [valueToGroupString]
    split
    · simp
    · assumption
  | vnum n =>
    simp only [valueToGroupString]
    cases n with
    | ofNat m =>
      rw [intToString, natToString, Ne, mkStr_eq_empty_iff, natDigits]
      split <;> simp
    | negSucc m =>
      rw [intToString, Ne, mkStr_eq_empty_iff]
      simp
  | vbool b => cases b <;> simp [valueToGroupString]
  | varr vs =>
    simp only [valueToGroupString, groupStringOfToString]
    split
    · simp
    · rename_i hguard
      push_neg at hguard
      exact stripWikilinks_ne_empty _ hguard.1
  | vobj s =>
    simp only [valueToGroupString, groupStringOfToString]
    split
    · simp
    · rename_i hguard
      push_neg at hguard
      exact stripWikilinks_ne_empty _ hguard.1

/-- C6 counterexample: at exactly twenty five hours before now the source
yields Yesterday, because the whole day count floors to one; the claim
expected one day ago there. -/
theorem c6_counterexample :
    formatRelativeDate (-90000000) 0 = "Yesterday" ∧ "Yesterday" ≠ "1d ago" :=
  ⟨by decide, by decide⟩

/-- C6 amended: the relative date test vectors, with the twenty five hour
vector corrected to Yesterday: the source floors the difference to whole
days, one whole day selects the Yesterday branch, and twenty five hours is
one whole day. The remaining vectors hold as claimed. -/
theorem c6_formatRelativeDate_vectors (now : Int) :
    formatRelativeDate now now = "Just now" ∧
    formatRelativeDate (now - 90 * 1000) now = "1m ago" ∧
    formatRelativeDate (now - 25 * 3600 * 1000) now = "Yesterday" ∧
    formatRelativeDate (now - 24 * 3600 * 1000) now = "Yesterday" ∧
    formatRelativeDate (now - 400 * 86400 * 1000) now = "1y ago" := by
  refine ⟨?_, ?_, ?_, ?_, ?_⟩
  · rw [formatRelativeDate, show now - now = (0 : Int) by ring]
    decide
  · rw [formatRelativeDate, show now - (now - 90 * 1000) = (90000 : Int) by ring]
    decide
  · rw [formatRelativeDate, show now - (now - 25 * 3600 * 1000) = (90000000 : Int) by ring]
    decide
  · rw [formatRelativeDate, show now - (now - 24 * 3600 * 1000) = (86400000 : Int) by ring]
    decide
  · rw [formatRelativeDate,
      show now - (now - 400 * 86400 * 1000) = (34560000000 : Int) by ring]
    decide

/-- C4: composite collapse keys are built exactly as claimed: with a truthy
native key the one level key is the native key, the separator of two colons
and the group key, and the two level key additionally appends the separator
and the sub group key; with no native key the one level key is the bare group
key and the two level key joins the group key and sub group key with a single
colon. -/
theorem c4_composite_collapse_keys (nativeKey groupKey : String) (entries : List BasesEntry)
    (subGroupProperty : String) (levelOffset : Nat) (cs : CollapseState) :
    (renderCustomGroup nativeKey groupKey entries levelOffset cs).collapseKey =
      (if nativeKey = "" then groupKey else nativeKey ++ "::" ++ groupKey) ∧
    (renderGroupWithSubGroups nativeKey groupKey entries subGroupProperty levelOffset
        cs).collapseKey =
      (if nativeKey = "" then groupKey else nativeKey ++ "::" ++ groupKey) ∧
    (renderGroupWithSubGroups nativeKey groupKey entries subGroupProperty levelOffset
        cs).subs.map SubGroupRender.compoundKey =
      (renderGroupWithSubGroups nativeKey groupKey entries subGroupProperty levelOffset
        cs).subs.map (fun sub =>
          if nativeKey = "" then groupKey ++ ":" ++ sub.key
          else nativeKey ++ "::" ++ groupKey ++ "::" ++ sub.key) := by
  refine ⟨rfl, rfl, ?_⟩
  simp only [renderGroupWithSubGroups, makeCompoundKey, List.map_map]
  split
  · rfl
  · simp [List.map_map]

theorem mem_setAdd (s : List String) (k x : String) : x ∈ setAdd s k ↔ x = k ∨ x ∈ s := by
  rw [setAdd]
  split
  · rename_i hin
    constructor
    · exact Or.inr
    · rintro (rfl | hx)
      · exact List.elem_iff.mp hin
      · exact hx
  · simp [List.mem_cons]

theorem mem_setDelete (s : List String) (k x : String) :
    x ∈ setDelete s k ↔ x ∈ s ∧ x ≠ k := by
  simp [setDelete, List.mem_filter]

theorem mem_toggleSet (s : List String) (key x : String) :
    (x ∈ (if s.contains key then setDelete s key else setAdd s key)) ↔
      (if x = key then ¬ key ∈ s else x ∈ s) := by
  split
  · rename_i hin
    rw [mem_setDelete]
    by_cases hx : x = key
    · subst hx
      simp [List.elem_iff.mp hin]
    · simp [hx, List.elem_iff.mp hin]
  · rename_i hout
    rw [mem_setAdd]
    have hk : ¬ key ∈ s := fun hc => hout (List.elem_iff.mpr hc)
    by_cases hx : x = key
    · subst hx
      simp [hk]
    · simp [hx]

theorem mem_toggleSet_twice (s : List String) (key k : String) :
    (k ∈ (if (if s.contains key then setDelete s key else setAdd s key).contains key
            then setDelete (if s.contains key then setDelete s key else setAdd s key) key
            else setAdd (if s.contains key then setDelete s key else setAdd s key) key)) ↔
      k ∈ s := by
  rw [mem_toggleSet]
  by_cases hk : k = key
  · subst hk
    rw [if_pos rfl, mem_toggleSet, if_pos rfl, not_not]
  · rw [if_neg hk, mem_toggleSet, if_neg hk]

theorem collapsedSetFor_toggle_same (cs : CollapseState) (key : String) (level : GroupLevel) :
    collapsedSetFor (toggleCollapse cs key level) level =
      (if (collapsedSetFor cs level).contains key
        then setDelete (collapsedSetFor cs level) key
        else setAdd (collapsedSetFor cs level) key) := by
  cases level <;> rfl

theorem collapsedSetFor_toggle_other (cs : CollapseState) (key : String) (level l : GroupLevel)
    (h : isSubLevel l ≠ isSubLevel level) :
    collapsedSetFor (toggleCollapse cs key level) l = collapsedSetFor cs l := by
  cases level <;> cases l <;> first | rfl | exact absurd rfl h

theorem collapsedSetFor_congr (cs : CollapseState) (l level : GroupLevel)
    (h : isSubLevel l = isSubLevel level) :
    collapsedSetFor cs l = collapsedSetFor cs level := by
  rw [collapsedSetFor, collapsedSetFor, h]

/-- C5: toggling is a pure membership flip on the role matching collapsed
set: after one toggle the key changes membership in its role set, and after
two toggles of the same key the whole collapse store has the same membership
as before, for every key and role. -/
theorem c5_toggle_membership_flip (cs : CollapseState) (key : String) (level : GroupLevel) :
    ((key ∈ collapsedSetFor (toggleCollapse cs key level) level) ↔
      ¬ key ∈ collapsedSetFor cs level) ∧
    ∀ (k : String) (l : GroupLevel),
      ((k ∈ collapsedSetFor (toggleCollapse (toggleCollapse cs key level) key level) l) ↔
        k ∈ collapsedSetFor cs l) := by
  constructor
  · rw [collapsedSetFor_toggle_same, mem_toggleSet, if_pos rfl]
  · intro k l
    by_cases hl : isSubLevel l = isSubLevel level
    · rw [collapsedSetFor_congr _ _ _ hl, collapsedSetFor_congr _ _ _ hl,
        collapsedSetFor_toggle_same, collapsedSetFor_toggle_same]
      exact mem_toggleSet_twice _ _ _
    · rw [collapsedSetFor_toggle_other _ _ _ _ hl, collapsedSetFor_toggle_other _ _ _ _ hl]

/-- Entry for the C3 counterexample: the accessor returns the truthy string
null and the frontmatter holds a usable value for the status field. -/
def c3entry : BasesEntry :=
  ⟨fun _ => .ok (.vstr "null"), some [("status", .vstr "hello")], none, []⟩

/-- C3 counterexample: for a truthy accessor value whose stringification is
the literal null, the grouping resolver returns a result from step one, the
key null, and does not proceed to the frontmatter fallback, which would have
produced hello; the subtitle resolver does proceed and yields hello. The
claim that both call sites fall through is therefore false on the grouping
side. -/
theorem c3_counterexample :
    getPropertyValueAsString c3entry "note.status" = "null" ∧
    groupFallback c3entry "note.status" = "hello" ∧
    ("null" : String) ≠ "hello" ∧
    getSubtitleText c3entry "note.status" = some "hello" :=
  ⟨rfl, rfl, by decide, rfl⟩

/-- C3 amended: the unusable stringification test guards only the subtitle
resolver. For subtitles, a truthy accessor value whose stringification is
empty, null or undefined is treated as no value and resolution proceeds to
the frontmatter fallback. For grouping, any truthy accessor value produces
the result of step one through valueToGroupString, and the frontmatter
fallback is reached only when the accessor throws or returns a falsy
value. -/
theorem c3_resolver_fallthrough_amended :
    (∀ (e : BasesEntry) (pid : String) (v : JSValue),
        pid ≠ "file.folder" → e.getValue pid = .ok v → v.truthy = true →
        (v.jsStr = "" ∨ v.jsStr = "null" ∨ v.jsStr = "undefined") →
        getSubtitleText e pid = subtitleFallback e pid) ∧
    (∀ (e : BasesEntry) (pid : String) (v : JSValue),
        e.getValue pid = .ok v → v.truthy = true →
        getPropertyValueAsString e pid = valueToGroupString v) := by
  constructor
  · intro e pid v hpid hv htruthy husable
    rw [getSubtitleText, if_neg hpid, hv]
    simp only [htruthy, if_true]
    rw [if_neg ?_]
    push_neg
    intro h1 h2
    rcases husable with h | h | h
    · exact absurd h h1
    · exact absurd h h2
    · exact h
  · intro e pid v hv htruthy
    rw [getPropertyValueAsString, hv]
    simp only [htruthy, if_true]

/-- Entry for the C3 witness: a truthy object whose stringification is
empty. -/
def c3wentry : BasesEntry :=
  ⟨fun _ => .ok (.vobj ""), some [("status", .vstr "hi")], none, []⟩

theorem c3_witness :
    getSubtitleText c3wentry "note.status" = subtitleFallback c3wentry "note.status" ∧
    getPropertyValueAsString c3wentry "note.status" = valueToGroupString (JSValue.vobj "") :=
  ⟨c3_resolver_fallthrough_amended.1 c3wentry "note.status" (JSValue.vobj "")
      (by decide) rfl rfl (Or.inl rfl),
    c3_resolver_fallthrough_amended.2 c3wentry "note.status" (JSValue.vobj "") rfl rfl⟩

/-- C8: when the accessor step of the grouping resolver yields no value for
the id file.folder, grouping resolves to the parent folder name with the non
null fallback Root, while the subtitle resolver returns the parent folder
name or null; the two call sites diverge exactly on the absent case, where
absent covers a missing parent and the empty name, both falsy. -/
theorem c8_file_folder_divergence (e : BasesEntry)
    (h : e.getValue "file.folder" = .error () ∨
      ∃ v, e.getValue "file.folder" = .ok v ∧ v.truthy = false) :
    (∀ n : String, e.parentName = some n → n ≠ "" →
        getPropertyValueAsString e "file.folder" = n ∧
        getSubtitleText e "file.folder" = some n) ∧
    ((e.parentName = none ∨ e.parentName = some "") →
        getPropertyValueAsString e "file.folder" = "Root" ∧
        getSubtitleText e "file.folder" = none) := by
  have hg : getPropertyValueAsString e "file.folder" = groupFallback e "file.folder" := by
    rcases h with herr | ⟨v, hok, hfalsy⟩
    · rw [getPropertyValueAsString, herr]
    · rw [getPropertyValueAsString, hok]
      simp [hfalsy]
  have hgf : groupFallback e "file.folder" =
      (match e.parentName with
        | some n => if n = "" then "Root" else n
        | none => "Root") := by
    rw [groupFallback]
    simp [show strStartsWith "file.folder" "note." = false from rfl]
  have hs : getSubtitleText e "file.folder" =
      (match e.parentName with
        | some n => if n = "" then none else some n
        | none => none) := by
    rw [getSubtitleText, if_pos rfl]
  constructor
  · intro n hn hne
    rw [hg, hgf, hs, hn]
    simp [hne]
  · rintro (hn | hn) <;> rw [hg, hgf, hs, hn] <;> simp

/-- Entry for the C8 witness: a throwing accessor and a present parent
folder. -/
def c8entry : BasesEntry := ⟨fun _ => .error (), none, some "Projects", []⟩

/-- Entry for the C8 witness absent case: a throwing accessor and no parent
folder. -/
def c8entryAbsent : BasesEntry := ⟨fun _ => .error (), none, none, []⟩

theorem c8_witness :
    (getPropertyValueAsString c8entry "file.folder" = "Projects" ∧
      getSubtitleText c8entry "file.folder" = some "Projects") ∧
    (getPropertyValueAsString c8entryAbsent "file.folder" = "Root" ∧
      getSubtitleText c8entryAbsent "file.folder" = none) :=
  ⟨(c8_file_folder_divergence c8entry (Or.inl rfl)).1 "Projects" rfl (by decide),
    (c8_file_folder_divergence c8entryAbsent (Or.inl rfl)).2 (Or.inl rfl)⟩

theorem trimChars_length_le (l : List Char) : (trimChars l).length ≤ l.length := by
  rw [trimChars]
  calc ((l.dropWhile Char.isWhitespace).reverse.dropWhile Char.isWhitespace).reverse.length
      = ((l.dropWhile Char.isWhitespace).reverse.dropWhile Char.isWhitespace).length :=
        List.length_reverse _
    _ ≤ (l.dropWhile Char.isWhitespace).reverse.length :=
        (List.dropWhile_sublist _).length_le
    _ = (l.dropWhile Char.isWhitespace).length := List.length_reverse _
    _ ≤ l.length := (List.dropWhile_sublist _).length_le

/-- C7: for a positive line count, the output of truncateToLines is exactly
the space join of the first maxLines non blank lines of the tag stripped
text, and whenever that join exceeds maxLines times eighty characters the
output is a cut of at most maxLines times eighty characters followed by the
ellipsis marker. -/
theorem c7_truncateToLines_bounds (s : String) (n : Nat) (_h : 0 < n) :
    ((joinSpace ((keptLines s.data).take n)).length ≤ n * 80 ∧
      truncateToLines s n = ⟨joinSpace ((keptLines s.data).take n)⟩) ∨
    (n * 80 < (joinSpace ((keptLines s.data).take n)).length ∧
      ∃ pre : List Char,
        truncateToLines s n = ⟨pre ++ "...".data⟩ ∧ pre.length ≤ n * 80) := by
  by_cases hlen : (joinSpace ((keptLines s.data).take n)).length > n * 80
  · right
    refine ⟨hlen, trimChars ((joinSpace ((keptLines s.data).take n)).take (n * 80)), ?_, ?_⟩
    · rw [truncateToLines, if_pos hlen]
    · calc (trimChars ((joinSpace ((keptLines s.data).take n)).take (n * 80))).length
          ≤ ((joinSpace ((keptLines s.data).take n)).take (n * 80)).length :=
            trimChars_length_le _
        _ ≤ n * 80 := by
            rw [List.length_take]
            omega
  · left
    exact ⟨by omega, by rw [truncateToLines, if_neg hlen]⟩

/-- Input for the C7 witness: a single line of one hundred characters. -/
def c7input : String :=
  "aaaaaaaaaaaaaaaaaaaaaaaaaaaaaaaaaaaaaaaaaaaaaaaaaaaaaaaaaaaaaaaaaaaaaaaaaaaaaaaaaaaaaaaaaaaaaaaaaa"

theorem c7_witness :
    ((joinSpace ((keptLines c7input.data).take 1)).length ≤ 1 * 80 ∧
      truncateToLines c7input 1 = ⟨joinSpace ((keptLines c7input.data).take 1)⟩) ∨
    (1 * 80 < (joinSpace ((keptLines c7input.data).take 1)).length ∧
      ∃ pre : List Char,
        truncateToLines c7input 1 = ⟨pre ++ "...".data⟩ ∧ pre.length ≤ 1 * 80) :=
  c7_truncateToLines_bounds c7input 1 (by decide)

theorem containsTag_of_mem (acc : List JSValue) (t : String)
    (h : JSValue.vstr t ∈ acc) : containsTag acc t = true := by
  rw [containsTag, List.any_eq_true]
  exact ⟨JSValue.vstr t, h, by simp [isTagMatch]⟩

theorem addInlineTags_spec (ts : List String) : ∀ (acc : List JSValue),
    ∃ rest : List JSValue,
      addInlineTags acc ts = acc ++ rest ∧
      (∀ t, t ∈ rest → ¬ t ∈ acc) ∧
      rest.Nodup ∧
      (∀ t, t ∈ rest → ∃ u, u ∈ ts ∧ t = JSValue.vstr (stripHash u)) := by
  induction ts with
  | nil =>
    intro acc
    exact ⟨[], by simp [addInlineTags], by simp, by simp, by simp⟩
  | cons t ts ih =>
    intro acc
    by_cases hc : containsTag acc (stripHash t) = true
    · obtain ⟨rest, h1, h2, h3, h4⟩ := ih acc
      refine ⟨rest, ?_, h2, h3, ?_⟩
      · rw [addInlineTags]
        simp only [hc, if_true]
        exact h1
      · intro x hx
        obtain ⟨u, hu, he⟩ := h4 x hx
        exact ⟨u, List.mem_cons_of_mem _ hu, he⟩
    · obtain ⟨rest, h1, h2, h3, h4⟩ := ih (acc ++ [JSValue.vstr (stripHash t)])
      refine ⟨JSValue.vstr (stripHash t) :: rest, ?_, ?_, ?_, ?_⟩
      · rw [addInlineTags]
        simp only [hc, if_false]
        rw [h1, List.append_assoc]
        rfl
      · intro x hx
        rcases List.mem_cons.mp hx with rfl | hx2
        · intro hmem
          exact hc (containsTag_of_mem acc (stripHash t) hmem)
        · intro hmem
          exact h2 x hx2 (List.mem_append_left _ hmem)
      · rw [List.nodup_cons]
        refine ⟨?_, h3⟩
        intro hin
        exact h2 _ hin (List.mem_append_right _ (by simp))
      · intro x hx
        rcases List.mem_cons.mp hx with rfl | hx2
        · exact ⟨t, List.mem_cons_self t ts, rfl⟩
        · obtain ⟨u, hu, he⟩ := h4 x hx2
          exact ⟨u, List.mem_cons_of_mem _ hu, he⟩

/-- C9 amended: getTags is the order preserving union of the frontmatter tag
values, kept exactly as given including internal duplicates, followed by the
stripped inline tags, where an inline tag is added only when not already
present, so inline tags never duplicate a frontmatter tag or each other; when
the frontmatter tag list itself has no duplicates the whole result has
none. -/
theorem c9_getTags_union_amended (e : BasesEntry) :
    (∃ rest : List JSValue,
        getTags e = fmTagValues e ++ rest ∧
        (∀ t, t ∈ rest → ¬ t ∈ fmTagValues e) ∧
        rest.Nodup ∧
        (∀ t, t ∈ rest → ∃ u, u ∈ e.inlineTags ∧ t = JSValue.vstr (stripHash u))) ∧
    ((fmTagValues e).Nodup → (getTags e).Nodup) := by
  obtain ⟨rest, h1, h2, h3, h4⟩ := addInlineTags_spec e.inlineTags (fmTagValues e)
  refine ⟨⟨rest, h1, h2, h3, h4⟩, ?_⟩
  intro hfm
  rw [getTags, h1]
  exact List.Nodup.append hfm h3 (fun a ha hb => h2 a hb ha)

/-- Entry for the C9 counterexample: the frontmatter tag list itself contains
a duplicate. -/
def c9dupEntry : BasesEntry :=
  ⟨fun _ => .error (), some [("tags", .varr [.vstr "a", .vstr "a"])], none, []⟩

/-- C9 counterexample: frontmatter tags are pushed as given, without de
duplication among themselves, so a duplicated frontmatter tag appears twice
in the result, refuting the claim that no tag string occurs twice. -/
theorem c9_counterexample :
    getTags c9dupEntry = [JSValue.vstr "a", JSValue.vstr "a"] ∧
    ¬ (getTags c9dupEntry).Nodup := by
  refine ⟨rfl, ?_⟩
  intro hnd
  rw [show getTags c9dupEntry = [JSValue.vstr "a", JSValue.vstr "a"] from rfl] at hnd
  simp [List.nodup_cons] at hnd

/-- Entry for the C9 witness: the end to end scenario of the spec, with
frontmatter tags a and b and the inline tag hash b. -/
def c9wEntry : BasesEntry :=
  ⟨fun _ => .error (), some [("tags", .varr [.vstr "a", .vstr "b"])], none, ["#b"]⟩

theorem c9_witness :
    (fmTagValues c9wEntry).Nodup ∧ (getTags c9wEntry).Nodup ∧
    getTags c9wEntry = [JSValue.vstr "a", JSValue.vstr "b"] := by
  have hfm : (fmTagValues c9wEntry).Nodup := by
    rw [show fmTagValues c9wEntry = [JSValue.vstr "a", JSValue.vstr "b"] from rfl]
    simp
  exact ⟨hfm, (c9_getTags_union_amended c9wEntry).2 hfm, rfl⟩

theorem contains_append_singleton (K : List String) (key x : String) :
    (K ++ [key]).contains x = (key :: K).contains x := by
  induction K with
  | nil => rfl
  | cons b bs ih =>
    show (x == b || (bs ++ [key]).contains x) = (x == key || (x == b || bs.contains x))
    rw [ih]
    show (x == b || (x == key || bs.contains x)) = _
    rw [← Bool.or_assoc, Bool.or_comm (x == b) (x == key), Bool.or_assoc]

theorem bucketOf_insertEntry (gs : List (String × List BasesEntry)) (key : String)
    (e : BasesEntry) (q : String) :
    bucketOf (insertEntry gs key e) q =
      if q = key then bucketOf gs q ++ [e] else bucketOf gs q := by
  induction gs with
  | nil =>
    by_cases hq : q = key
    · subst hq
      simp [insertEntry, bucketOf]
    · simp [insertEntry, bucketOf, hq, Ne.symm hq]
  | cons p rest ih =>
    obtain ⟨k0, es⟩ := p
    by_cases h0 : k0 = key
    · subst h0
      by_cases hq : q = k0
      · subst hq
        simp [insertEntry, bucketOf]
      · simp [insertEntry, bucketOf, hq, Ne.symm hq]
    · by_cases hq : q = k0
      · subst hq
        simp [insertEntry, bucketOf, h0, Ne.symm h0]
      · simp [insertEntry, bucketOf, h0, hq, Ne.symm hq, ih]

theorem insertEntry_cons_pos (rest : List (String × List BasesEntry)) (k0 key : String)
    (es : List BasesEntry) (e : BasesEntry) (h0 : k0 = key) :
    insertEntry ((k0, es) :: rest) key e = (k0, es ++ [e]) :: rest := by
  simp only [insertEntry]
  rw [if_pos h0]

theorem insertEntry_cons_neg (rest : List (String × List BasesEntry)) (k0 key : String)
    (es : List BasesEntry) (e : BasesEntry) (h0 : ¬ k0 = key) :
    insertEntry ((k0, es) :: rest) key e = (k0, es) :: insertEntry rest key e := by
  simp only [insertEntry]
  rw [if_neg h0]

theorem flatten_insertEntry (gs : List (String × List BasesEntry)) (key : String)
    (e : BasesEntry) :
    List.Perm ((insertEntry gs key e).map Prod.snd).flatten
      (((gs.map Prod.snd).flatten) ++ [e]) := by
  induction gs with
  | nil => simp [insertEntry]
  | cons p rest ih =>
    obtain ⟨k0, es⟩ := p
    by_cases h0 : k0 = key
    · rw [insertEntry_cons_pos rest k0 key es e h0, List.map_cons, List.flatten_cons,
        List.map_cons, List.flatten_cons, List.append_assoc, List.append_assoc]
      exact List.Perm.append_left es List.perm_append_comm
    · rw [insertEntry_cons_neg rest k0 key es e h0, List.map_cons, List.flatten_cons,
        List.map_cons, List.flatten_cons, List.append_assoc]
      exact List.Perm.append_left es ih

theorem keys_insertEntry (gs : List (String × List BasesEntry)) (key : String) (e : BasesEntry) :
    (insertEntry gs key e).map Prod.fst =
      if (gs.map Prod.fst).contains key then gs.map Prod.fst
      else gs.map Prod.fst ++ [key] := by
  induction gs with
  | nil => simp [insertEntry]
  | cons p rest ih =>
    obtain ⟨k0, es⟩ := p
    by_cases h0 : k0 = key
    · rw [insertEntry_cons_pos rest k0 key es e h0, List.map_cons, List.map_cons]
      rw [if_pos]
      show (key == k0 || (rest.map Prod.fst).contains key) = true
      rw [h0]
      simp
    · rw [insertEntry_cons_neg rest k0 key es e h0, List.map_cons, List.map_cons, ih]
      have hbe : (key == k0) = false := beq_eq_false_iff_ne.mpr (fun h => h0 h.symm)
      rw [show (k0 :: rest.map Prod.fst).contains key =
            (key == k0 || (rest.map Prod.fst).contains key) from rfl, hbe, Bool.false_or]
      by_cases hc : (rest.map Prod.fst).contains key = true
      · rw [if_pos hc, if_pos hc]
      · rw [if_neg hc, if_neg hc]
        rfl

theorem firstSeen_congr : ∀ (l s1 s2 : List String),
    (∀ x, s1.contains x = s2.contains x) → firstSeen s1 l = firstSeen s2 l := by
  intro l
  induction l with
  | nil => intro s1 s2 _; rfl
  | cons k rest ih =>
    intro s1 s2 h
    rw [firstSeen, firstSeen, h k]
    by_cases hc : s2.contains k = true
    · rw [if_pos hc, if_pos hc]
      exact ih s1 s2 h
    · rw [if_neg hc, if_neg hc]
      refine congrArg (k :: ·) ?_
      refine ih (k :: s1) (k :: s2) (fun x => ?_)
      show (x == k || s1.contains x) = (x == k || s2.contains x)
      rw [h x]

theorem bucketOf_groupLoop (pid : String) (es : List BasesEntry) : ∀ gs q,
    bucketOf (groupLoop pid es gs) q =
      bucketOf gs q ++ es.filter (fun e => getPropertyValueAsString e pid = q) := by
  induction es with
  | nil =>
    intro gs q
    simp [groupLoop]
  | cons e es ih =>
    intro gs q
    simp only [groupLoop]
    rw [ih, bucketOf_insertEntry, List.filter_cons]
    by_cases hq : q = getPropertyValueAsString e pid
    · rw [if_pos hq]
      rw [show (decide (getPropertyValueAsString e pid = q)) = true by rw [hq]; simp]
      rw [if_pos rfl, List.append_assoc]
      rfl
    · rw [if_neg hq]
      rw [show (decide (getPropertyValueAsString e pid = q)) = false by
        simp
        exact fun h => hq h.symm]
      simp

theorem flatten_groupLoop (pid : String) (es : List BasesEntry) : ∀ gs,
    List.Perm ((groupLoop pid es gs).map Prod.snd).flatten
      (((gs.map Prod.snd).flatten) ++ es) := by
  induction es with
  | nil =>
    intro gs
    simp only [groupLoop, List.append_nil]
    exact List.Perm.refl _
  | cons e es ih =>
    intro gs
    simp only [groupLoop]
    refine (ih _).trans ?_
    refine (List.Perm.append_right es (flatten_insertEntry gs _ e)).trans ?_
    rw [List.append_assoc]
    exact List.Perm.refl _

theorem keys_groupLoop (pid : String) (es : List BasesEntry) : ∀ gs,
    (groupLoop pid es gs).map Prod.fst =
      gs.map Prod.fst ++
        firstSeen (gs.map Prod.fst) (es.map (fun e => getPropertyValueAsString e pid)) := by
  induction es with
  | nil =>
    intro gs
    simp [groupLoop, firstSeen]
  | cons e es ih =>
    intro gs
    simp only [groupLoop]
    rw [ih (insertEntry gs (getPropertyValueAsString e pid) e), keys_insertEntry,
      List.map_cons, firstSeen]
    by_cases hc : (gs.map Prod.fst).contains (getPropertyValueAsString e pid) = true
    · rw [if_pos hc, if_pos hc]
    · rw [if_neg hc, if_neg hc, List.append_assoc]
      refine congrArg (gs.map Prod.fst ++ ·) ?_
      show getPropertyValueAsString e pid ::
          firstSeen (gs.map Prod.fst ++ [getPropertyValueAsString e pid])
            (es.map (fun e => getPropertyValueAsString e pid)) = _
      refine congrArg (getPropertyValueAsString e pid :: ·) ?_
      exact firstSeen_congr _ _ _ (fun x => contains_append_singleton _ _ x)

/-- C1: grouping partitions the entries exactly: the bucket of every key is
the ordered sublist of input entries resolving to that key, so every entry
lands in exactly one bucket, the one named by its resolved key, keeping
input order; the concatenation of all buckets is a permutation of the input,
so nothing is duplicated or dropped; and the keys appear in first seen
order. -/
theorem c1_groupEntriesByProperty_partitions (entries : List BasesEntry) (propertyId : String) :
    (∀ q : String, bucketOf (groupEntriesByProperty entries propertyId) q =
        entries.filter (fun e => getPropertyValueAsString e propertyId = q)) ∧
    List.Perm ((groupEntriesByProperty entries propertyId).map Prod.snd).flatten entries ∧
    (groupEntriesByProperty entries propertyId).map Prod.fst =
      firstSeen [] (entries.map (fun e => getPropertyValueAsString e propertyId)) := by
  refine ⟨?_, ?_, ?_⟩
  · intro q
    rw [groupEntriesByProperty, bucketOf_groupLoop]
    rfl
  · have h := flatten_groupLoop propertyId entries []
    simpa [groupEntriesByProperty] using h
  · rw [groupEntriesByProperty, keys_groupLoop]
    rfl

end ELV

